import Mathlib

/-!
Verification of the NES emulator skeleton (`clientv0.py`).

The emulator core is the `NES` class: a 64KB memory, the 6502 register
file, a cartridge loader, and a fetch loop.  We embed it shallowly:

* `memory` (a Python list of 65536 ints indexed after masking) becomes a
  total function `Nat → Nat`; a write is `Function.update`.
* Python integers are `Int` where the source masks arbitrary ints
  (`addr &= 0xFFFF`, `value &= 0xFF`); for any Python int `x` and
  all-ones mask `2^k - 1`, `x & (2^k - 1) = x mod 2^k`, which is `Int`'s
  `%` (`Int.emod`) in Lean.  Register fields that the code keeps in
  range are `Nat`.
* Mutating methods become state-passing functions on the `NES`
  structure; `load_rom` takes the file contents as a byte list (the
  `open`/`read` I/O is outside the embedding) and returns the Python
  `bool` result together with the new state.
* The `while self.running` loop of `emulator_loop` becomes a
  fuel-indexed recursion that also counts how many bytes were fetched.
-/

/-- The `NES` object state: `self.memory`, `self.pc`, `self.sp`,
`self.A`, `self.X`, `self.Y`, `self.P`, `self.running` (the `thread`
handle is part of the host threading library, not of the data model). -/
structure NES where
  memory : Nat → Nat
  pc : Nat
  sp : Nat
  A : Nat
  X : Nat
  Y : Nat
  P : Nat
  running : Bool

/-- `NES.__init__`: 64KB of zeroed memory, `pc = 0`, `sp = 0xFD`,
`A = X = Y = P = 0`, `running = False`. -/
def NES.init : NES :=
  { memory := fun _ => 0
    pc := 0
    sp := 0xFD
    A := 0
    X := 0
    Y := 0
    P := 0
    running := false }

/-- Python `addr & 0xFFFF` on an arbitrary int, as a memory index. -/
def maskAddr (addr : Int) : Nat := (addr % 65536).toNat

/-- Python `value & 0xFF` on an arbitrary int, as a stored byte. -/
def maskByte (value : Int) : Nat := (value % 256).toNat

/-- `NES.read_byte`: mask the address to 16 bits, return the byte there. -/
def NES.read_byte (s : NES) (addr : Int) : Nat :=
  s.memory (maskAddr addr)

/-- `NES.write_byte`: mask the address to 16 bits and the value to
8 bits, store the value. -/
def NES.write_byte (s : NES) (addr value : Int) : NES :=
  { s with memory := Function.update s.memory (maskAddr addr) (maskByte value) }

/-- `NES.reset`: `A = X = Y = 0`, `sp = 0xFD`, `P = 0x04`, then
`pc = (high << 8) | low` with `low` read from `0xFFFC` and `high` from
`0xFFFD`. -/
def NES.reset (s : NES) : NES :=
  let low := s.read_byte 0xFFFC
  let high := s.read_byte 0xFFFD
  { s with
    A := 0
    X := 0
    Y := 0
    sp := 0xFD
    P := 0x04
    pc := (high <<< 8) ||| low }

/-- `NES.fetch_byte`: `pc &= 0xFFFF`; read `memory[pc]`; then
`pc = (pc + 1) & 0xFFFF`.  Returns the byte and the new state. -/
def NES.fetch_byte (s : NES) : Nat × NES :=
  let pc := s.pc % 65536
  let byte := s.memory pc
  (byte, { s with pc := (pc + 1) % 65536 })

/-- The `for i in range(len(bank)): memory[base + i] = bank[i]` copy
loop of `NES.load_rom`, as sequential single-byte writes. -/
def copy_bank (mem : Nat → Nat) (base : Nat) : List Nat → (Nat → Nat)
  | [] => mem
  | b :: rest => copy_bank (Function.update mem base b) (base + 1) rest

/-- `NES.load_rom` on the bytes `data` of an already-read file: header
validation (length, magic, declared PRG size), copying bank 1 to
`0x8000`, mirroring it to `0xC000` when `prg_banks == 1` and otherwise
copying bank 2 there, then `reset`.  Returns the Python result
(`False` on a rejected file, state untouched; `True` on success). -/
def NES.load_rom (s : NES) (data : List Nat) : Bool × NES :=
  if data.length < 16 ∨ data.take 4 ≠ [0x4E, 0x45, 0x53, 0x1A] then
    (false, s)
  else
    let prg_banks := data.getD 4 0
    let offset := 16
    let prg_size := prg_banks * 16384
    if data.length < offset + prg_size then
      (false, s)
    else
      let bank1 := (data.drop offset).take 16384
      let s1 : NES := { s with memory := copy_bank s.memory 0x8000 bank1 }
      let s2 : NES :=
        if prg_banks = 1 then
          { s1 with memory := copy_bank s1.memory 0xC000 bank1 }
        else
          let bank2 := (data.drop (offset + 16384)).take 16384
          { s1 with memory := copy_bank s1.memory 0xC000 bank2 }
      (true, s2.reset)

/-- `NES.emulator_loop`: `while self.running: opcode = fetch_byte();
if opcode == 0x00: running = False`.  Fuel-indexed; returns the final
state and the number of bytes fetched. -/
def NES.emulator_loop : Nat → NES → NES × Nat
  | 0, s => (s, 0)
  | fuel + 1, s =>
    if s.running then
      let step := s.fetch_byte
      let s2 : NES :=
        if step.1 = 0 then { step.2 with running := false } else step.2
      let rest := NES.emulator_loop fuel s2
      (rest.1, rest.2 + 1)
    else
      (s, 0)

/-! ### Basic lemmas -/

lemma maskAddr_lt (addr : Int) : maskAddr addr < 65536 := by
  unfold maskAddr
  have h := Int.emod_lt_of_pos addr (by norm_num : (0 : Int) < 65536)
  omega

lemma maskByte_lt (value : Int) : maskByte value < 256 := by
  unfold maskByte
  have h := Int.emod_lt_of_pos value (by norm_num : (0 : Int) < 256)
  omega

lemma copy_bank_apply (bank : List Nat) (mem : Nat → Nat) (base a : Nat) :
    copy_bank mem base bank a =
      if base ≤ a ∧ a < base + bank.length then bank.getD (a - base) 0
      else mem a := by
  induction bank generalizing mem base with
  | nil =>
    show mem a = _
    simp only [List.length_nil, Nat.add_zero]
    rw [if_neg (by omega)]
  | cons b rest ih =>
    show copy_bank (Function.update mem base b) (base + 1) rest a = _
    rw [ih]
    simp only [List.length_cons]
    by_cases heq : a = base
    · subst heq
      rw [if_neg (by omega), if_pos (by omega)]
      simp [Function.update]
    · by_cases hin : base + 1 ≤ a ∧ a < base + 1 + rest.length
      · rw [if_pos hin, if_pos (by omega)]
        have hidx : a - base = (a - (base + 1)) + 1 := by omega
        rw [hidx, List.getD_cons_succ]
      · rw [if_neg hin, if_neg (by omega)]
        simp [Function.update, heq]

lemma copy_bank_nil (mem : Nat → Nat) (base : Nat) :
    copy_bank mem base [] = mem := rfl

lemma emulator_loop_not_running (fuel : Nat) (s : NES)
    (h : s.running = false) : NES.emulator_loop fuel s = (s, 0) := by
  cases fuel with
  | zero => rfl
  | succ n => rw [NES.emulator_loop, h]; simp

lemma reset_memory (s : NES) : s.reset.memory = s.memory := rfl

lemma bank_length (data : List Nat) (off : Nat) (h : off + 16384 ≤ data.length) :
    ((data.drop off).take 16384).length = 16384 := by
  simp only [List.length_take, List.length_drop]
  omega

/-! ### Claims -/

/-- C3: for every integer address `a` (also out of 16-bit range) and
every integer value `v`, `write_byte a v` followed by `read_byte a`
returns `v & 0xFF` (which is `v mod 256` for Python ints); both
operations are total, so no error is ever signalled. -/
theorem write_then_read_returns_masked_value (s : NES) (a v : Int) :
    ((s.write_byte a v).read_byte a) = (v % 256).toNat := by
  unfold NES.write_byte NES.read_byte maskByte
  simp [Function.update]

/-- C2: `reset` zeroes `A`, `X`, `Y`, sets `SP = 0xFD`, `P = 0x04`, and
sets `PC = (mem[0xFFFD] << 8) | mem[0xFFFC]`; in particular with
`mem[0xFFFC] = 0x00` and `mem[0xFFFD] = 0x90` the new `PC` is
`0x9000`. -/
theorem reset_sets_registers_and_vector (s : NES) :
    s.reset.A = 0 ∧ s.reset.X = 0 ∧ s.reset.Y = 0 ∧
    s.reset.sp = 0xFD ∧ s.reset.P = 0x04 ∧
    s.reset.pc = (s.memory 0xFFFD <<< 8) ||| s.memory 0xFFFC ∧
    (s.memory 0xFFFC = 0x00 → s.memory 0xFFFD = 0x90 →
      s.reset.pc = 0x9000) := by
  have hpc : s.reset.pc = (s.memory 0xFFFD <<< 8) ||| s.memory 0xFFFC := rfl
  refine ⟨rfl, rfl, rfl, rfl, rfl, hpc, ?_⟩
  intro hl hh
  rw [hpc, hl, hh]
  rfl

/-- Witness for C2 at a concrete state: vector bytes `0x00`/`0x90`
give `PC = 0x9000`. -/
theorem reset_sets_registers_and_vector_witness :
    ((NES.init.write_byte 0xFFFD 0x90).reset).pc = 0x9000 :=
  (reset_sets_registers_and_vector (NES.init.write_byte 0xFFFD 0x90)).2.2.2.2.2.2
    rfl rfl

/-- C4: for every state whose `PC` is in 16-bit range, `fetch_byte`
returns `memory[PC]`, sets `PC := (PC + 1) mod 65536` (so `0xFFFF`
wraps to `0x0000`), and leaves memory and the registers `A`, `X`, `Y`,
`P`, `SP` and the running flag unchanged. -/
theorem fetch_byte_reads_pc_and_increments (s : NES) (hpc : s.pc < 65536) :
    s.fetch_byte.1 = s.memory s.pc ∧
    s.fetch_byte.2.pc = (s.pc + 1) % 65536 ∧
    s.fetch_byte.2.memory = s.memory ∧
    s.fetch_byte.2.A = s.A ∧ s.fetch_byte.2.X = s.X ∧
    s.fetch_byte.2.Y = s.Y ∧ s.fetch_byte.2.P = s.P ∧
    s.fetch_byte.2.sp = s.sp ∧ s.fetch_byte.2.running = s.running := by
  have hmod : s.pc % 65536 = s.pc := Nat.mod_eq_of_lt hpc
  unfold NES.fetch_byte
  rw [hmod]
  exact ⟨rfl, rfl, rfl, rfl, rfl, rfl, rfl, rfl, rfl⟩

/-- Witness for C4 at `PC = 0xFFFF`: the fetch wraps `PC` to 0. -/
theorem fetch_byte_reads_pc_and_increments_witness :
    (0xFFFF : Nat) < 65536 ∧
    ({ NES.init with pc := 0xFFFF } : NES).fetch_byte.2.pc = (0xFFFF + 1) % 65536 :=
  ⟨by decide,
    (fetch_byte_reads_pc_and_increments { NES.init with pc := 0xFFFF }
      (by decide)).2.1⟩

/-- C1: loading a well-formed single-bank image (valid magic, bank
count byte 1, length at least `16 + 16384`) with program bank `B`
succeeds and leaves `memory[0x8000 + i] = memory[0xC000 + i] = B[i]`
for every `i < 16384`: the single bank is mirrored into both upper
16KB windows. -/
theorem load_rom_single_bank_mirrors (s : NES) (data B : List Nat)
    (hmagic : data.take 4 = [0x4E, 0x45, 0x53, 0x1A])
    (hcount : data.getD 4 0 = 1)
    (hlen : 16 + 16384 ≤ data.length)
    (hB : (data.drop 16).take 16384 = B) :
    (s.load_rom data).1 = true ∧
    ∀ i, i < 16384 →
      (s.load_rom data).2.memory (0x8000 + i) = B.getD i 0 ∧
      (s.load_rom data).2.memory (0xC000 + i) = B.getD i 0 := by
  have h1 : ¬ (data.length < 16 ∨ data.take 4 ≠ [78, 69, 83, 26]) :=
    not_or.mpr ⟨by omega, by simp [hmagic]⟩
  have hn2 : ¬ data.length < 16 + 1 * 16384 := by omega
  have hres : s.load_rom data = (true, NES.reset { s with memory := copy_bank (copy_bank s.memory 0x8000 B) 0xC000 B }) := by
    unfold NES.load_rom
    rw [if_neg h1]
    simp only [hcount]
    rw [if_neg hn2, if_pos trivial, hB]
  have hBlen : B.length = 16384 := by rw [← hB]; exact bank_length data 16 hlen
  refine ⟨by rw [hres], ?_⟩
  intro i hi
  rw [hres]
  simp only [reset_memory]
  constructor
  · rw [copy_bank_apply, if_neg (by rw [hBlen]; omega), copy_bank_apply,
      if_pos (by rw [hBlen]; omega), Nat.add_sub_cancel_left]
  · rw [copy_bank_apply, if_pos (by rw [hBlen]; omega), Nat.add_sub_cancel_left]

/-- A concrete 16400-byte single-bank image: valid magic, bank count 1,
padding, then a bank of 16384 sevens. -/
def romSingle : List Nat :=
  [78, 69, 83, 26, 1] ++ List.replicate 11 0 ++ List.replicate 16384 7

/-- The program bank of `romSingle`. -/
def bankSevens : List Nat := List.replicate 16384 7

/-- Witness for C1: loading `romSingle` succeeds and both upper 16KB
windows hold the bank of sevens. -/
theorem load_rom_single_bank_mirrors_witness :
    (romSingle.take 4 = [0x4E, 0x45, 0x53, 0x1A] ∧
      romSingle.getD 4 0 = 1 ∧
      16 + 16384 ≤ romSingle.length ∧
      (romSingle.drop 16).take 16384 = bankSevens) ∧
    ((NES.init.load_rom romSingle).1 = true ∧
      ∀ i, i < 16384 →
        (NES.init.load_rom romSingle).2.memory (0x8000 + i) = bankSevens.getD i 0 ∧
        (NES.init.load_rom romSingle).2.memory (0xC000 + i) = bankSevens.getD i 0) := by
  have hdrop : (romSingle.drop 16).take 16384 = bankSevens := by
    unfold romSingle bankSevens
    rw [List.drop_left' (by simp only [List.length_append, List.length_replicate,
      List.length_cons, List.length_nil]), List.take_replicate, Nat.min_self]
  have hmagic : romSingle.take 4 = [0x4E, 0x45, 0x53, 0x1A] := rfl
  have hcount : romSingle.getD 4 0 = 1 := rfl
  have hlen : 16 + 16384 ≤ romSingle.length := by
    unfold romSingle
    simp only [List.length_append, List.length_replicate, List.length_cons,
      List.length_nil]
    omega
  exact ⟨⟨hmagic, hcount, hlen, hdrop⟩,
    load_rom_single_bank_mirrors NES.init romSingle bankSevens hmagic hcount hlen hdrop⟩

/-- C5: loading a well-formed two-bank image (valid magic, bank count
byte 2, length at least `16 + 32768`) with banks `B1`, `B2` succeeds
and leaves `memory[0x8000 + i] = B1[i]` and `memory[0xC000 + i] = B2[i]`
for every `i < 16384`. -/
theorem load_rom_two_banks (s : NES) (data B1 B2 : List Nat)
    (hmagic : data.take 4 = [0x4E, 0x45, 0x53, 0x1A])
    (hcount : data.getD 4 0 = 2)
    (hlen : 16 + 32768 ≤ data.length)
    (hB1 : (data.drop 16).take 16384 = B1)
    (hB2 : (data.drop (16 + 16384)).take 16384 = B2) :
    (s.load_rom data).1 = true ∧
    ∀ i, i < 16384 →
      (s.load_rom data).2.memory (0x8000 + i) = B1.getD i 0 ∧
      (s.load_rom data).2.memory (0xC000 + i) = B2.getD i 0 := by
  have h1 : ¬ (data.length < 16 ∨ data.take 4 ≠ [78, 69, 83, 26]) :=
    not_or.mpr ⟨by omega, by simp [hmagic]⟩
  have hn2 : ¬ data.length < 16 + 2 * 16384 := by omega
  have hres : s.load_rom data = (true, NES.reset { s with memory := copy_bank (copy_bank s.memory 0x8000 B1) 0xC000 B2 }) := by
    unfold NES.load_rom
    rw [if_neg h1]
    simp only [hcount]
    rw [if_neg hn2, if_neg (by omega : ¬ (2 : Nat) = 1), hB1, hB2]
  have hB1len : B1.length = 16384 := by rw [← hB1]; exact bank_length data 16 (by omega)
  have hB2len : B2.length = 16384 := by
    rw [← hB2]; exact bank_length data (16 + 16384) (by omega)
  refine ⟨by rw [hres], ?_⟩
  intro i hi
  rw [hres]
  simp only [reset_memory]
  constructor
  · rw [copy_bank_apply, if_neg (by rw [hB2len]; omega), copy_bank_apply,
      if_pos (by rw [hB1len]; omega), Nat.add_sub_cancel_left]
  · rw [copy_bank_apply, if_pos (by rw [hB2len]; omega), Nat.add_sub_cancel_left]

/-- A concrete 32784-byte two-bank image: valid magic, bank count 2,
padding, a bank of sevens, then a bank of nines. -/
def romDouble : List Nat :=
  [78, 69, 83, 26, 2] ++ List.replicate 11 0 ++
    List.replicate 16384 7 ++ List.replicate 16384 9

/-- The second program bank of `romDouble`. -/
def bankNines : List Nat := List.replicate 16384 9

/-- Witness for C5: loading `romDouble` succeeds, the `0x8000` window
holds the sevens and the `0xC000` window the nines. -/
theorem load_rom_two_banks_witness :
    (romDouble.take 4 = [0x4E, 0x45, 0x53, 0x1A] ∧
      romDouble.getD 4 0 = 2 ∧
      16 + 32768 ≤ romDouble.length ∧
      (romDouble.drop 16).take 16384 = bankSevens ∧
      (romDouble.drop (16 + 16384)).take 16384 = bankNines) ∧
    ((NES.init.load_rom romDouble).1 = true ∧
      ∀ i, i < 16384 →
        (NES.init.load_rom romDouble).2.memory (0x8000 + i) = bankSevens.getD i 0 ∧
        (NES.init.load_rom romDouble).2.memory (0xC000 + i) = bankNines.getD i 0) := by
  have hassoc : romDouble = ([78, 69, 83, 26, 2] ++ List.replicate 11 0) ++
      (List.replicate 16384 7 ++ List.replicate 16384 9) := by
    unfold romDouble
    rw [List.append_assoc ([78, 69, 83, 26, 2] ++ List.replicate 11 0)]
  have hB1 : (romDouble.drop 16).take 16384 = bankSevens := by
    rw [hassoc, List.drop_left' (by simp only [List.length_append,
      List.length_replicate, List.length_cons, List.length_nil]),
      List.take_append_of_le_length (by simp only [List.length_replicate]; omega),
      List.take_replicate, Nat.min_self]
    rfl
  have hB2 : (romDouble.drop (16 + 16384)).take 16384 = bankNines := by
    unfold romDouble bankNines
    rw [List.drop_left' (by simp only [List.length_append, List.length_replicate,
      List.length_cons, List.length_nil]), List.take_replicate, Nat.min_self]
  have hmagic : romDouble.take 4 = [0x4E, 0x45, 0x53, 0x1A] := rfl
  have hcount : romDouble.getD 4 0 = 2 := rfl
  have hlen : 16 + 32768 ≤ romDouble.length := by
    unfold romDouble
    simp only [List.length_append, List.length_replicate, List.length_cons,
      List.length_nil]
    omega
  exact ⟨⟨hmagic, hcount, hlen, hB1, hB2⟩,
    load_rom_two_banks NES.init romDouble bankSevens bankNines hmagic hcount hlen hB1 hB2⟩

/-- C6: a file shorter than 16 bytes, or with wrong magic, or shorter
than `16 + bank_count * 16384`, is rejected: `load_rom` returns `False`
and the whole state — every memory byte and every register — is exactly
the state before the call. -/
theorem load_rom_rejects_bad_images (s : NES) (data : List Nat)
    (hbad : data.length < 16 ∨ data.take 4 ≠ [0x4E, 0x45, 0x53, 0x1A] ∨
      data.length < 16 + data.getD 4 0 * 16384) :
    s.load_rom data = (false, s) := by
  by_cases hfirst : data.length < 16 ∨ data.take 4 ≠ [0x4E, 0x45, 0x53, 0x1A]
  · unfold NES.load_rom
    rw [if_pos hfirst]
  · have h : data.length < 16 + data.getD 4 0 * 16384 := by
      rcases hbad with h | h | h
      · exact absurd (Or.inl h) hfirst
      · exact absurd (Or.inr h) hfirst
      · exact h
    unfold NES.load_rom
    rw [if_neg hfirst]
    show (if data.length < 16 + data.getD 4 0 * 16384 then (false, s) else _) =
      (false, s)
    rw [if_pos h]

/-- Witness for C6: the empty file is rejected and the initial state is
returned untouched. -/
theorem load_rom_rejects_bad_images_witness :
    (([] : List Nat).length < 16 ∨ ([] : List Nat).take 4 ≠ [0x4E, 0x45, 0x53, 0x1A] ∨
      ([] : List Nat).length < 16 + ([] : List Nat).getD 4 0 * 16384) ∧
    NES.init.load_rom [] = (false, NES.init) :=
  ⟨Or.inl (by decide), load_rom_rejects_bad_images NES.init [] (Or.inl (by decide))⟩

/-- C10: a 16-byte file with valid magic and bank count byte 0 is
accepted: `load_rom` returns `True`, copies nothing (both banks are
empty slices), and still runs `reset`; on an all-zero memory the
resulting `PC` is 0. -/
theorem load_rom_zero_banks_accepted (s : NES) (data : List Nat)
    (hlen : data.length = 16)
    (hmagic : data.take 4 = [0x4E, 0x45, 0x53, 0x1A])
    (hcount : data.getD 4 0 = 0) :
    s.load_rom data = (true, s.reset) ∧
    ((∀ a, s.memory a = 0) → (s.load_rom data).2.pc = 0) := by
  have h1 : ¬ (data.length < 16 ∨ data.take 4 ≠ [78, 69, 83, 26]) :=
    not_or.mpr ⟨by omega, by simp [hmagic]⟩
  have hn2 : ¬ data.length < 16 + 0 * 16384 := by omega
  have hdrop : data.drop 16 = [] := List.drop_eq_nil_of_le (by omega)
  have hdrop2 : data.drop (16 + 16384) = [] := List.drop_eq_nil_of_le (by omega)
  have hres : s.load_rom data = (true, s.reset) := by
    unfold NES.load_rom
    rw [if_neg h1]
    simp only [hcount]
    rw [if_neg hn2, if_neg (by omega : ¬ (0 : Nat) = 1), hdrop, hdrop2]
    rfl
  refine ⟨hres, ?_⟩
  intro hzero
  rw [hres]
  show (s.memory 0xFFFD <<< 8) ||| s.memory 0xFFFC = 0
  rw [hzero, hzero]
  rfl

/-- The minimal accepted image: magic, bank count 0, 11 padding bytes. -/
def romEmpty : List Nat := [78, 69, 83, 26, 0] ++ List.replicate 11 0

/-- Witness for C10: loading `romEmpty` into a fresh `NES` succeeds,
only resets, and gives `PC = 0`. -/
theorem load_rom_zero_banks_accepted_witness :
    (romEmpty.length = 16 ∧ romEmpty.take 4 = [0x4E, 0x45, 0x53, 0x1A] ∧
      romEmpty.getD 4 0 = 0) ∧
    (NES.init.load_rom romEmpty = (true, NES.init.reset) ∧
      ((∀ a, NES.init.memory a = 0) → (NES.init.load_rom romEmpty).2.pc = 0)) :=
  ⟨⟨rfl, rfl, rfl⟩,
    load_rom_zero_banks_accepted NES.init romEmpty rfl rfl rfl⟩

/-- C7: with the engine running and opcode `0x00` at the current `PC`,
the loop stops — the final state has `running = false` — and exactly
one byte was fetched, for any amount of fuel that lets the loop run at
least one iteration. -/
theorem halt_opcode_stops_after_one_fetch (s : NES) (fuel : Nat)
    (hrun : s.running = true)
    (hmem : s.memory (s.pc % 65536) = 0)
    (hfuel : 1 ≤ fuel) :
    (NES.emulator_loop fuel s).1.running = false ∧
    (NES.emulator_loop fuel s).2 = 1 := by
  cases fuel with
  | zero => omega
  | succ f =>
    rw [NES.emulator_loop, if_pos hrun]
    show ((NES.emulator_loop f (if s.fetch_byte.1 = 0 then { s.fetch_byte.2 with running := false } else s.fetch_byte.2)).1.running = false ∧ (NES.emulator_loop f (if s.fetch_byte.1 = 0 then { s.fetch_byte.2 with running := false } else s.fetch_byte.2)).2 + 1 = 1)
    have hz : s.fetch_byte.1 = 0 := hmem
    rw [if_pos hz, emulator_loop_not_running f _ rfl]
    exact ⟨rfl, rfl⟩

/-- Witness for C7: a fresh running `NES` (all-zero memory, so the
opcode at `PC = 0` is `0x00`) stops after fetching one byte. -/
theorem halt_opcode_stops_after_one_fetch_witness :
    (({ NES.init with running := true } : NES).running = true ∧
      ({ NES.init with running := true } : NES).memory
        (({ NES.init with running := true } : NES).pc % 65536) = 0 ∧
      1 ≤ 1) ∧
    ((NES.emulator_loop 1 { NES.init with running := true }).1.running = false ∧
      (NES.emulator_loop 1 { NES.init with running := true }).2 = 1) :=
  ⟨⟨rfl, rfl, le_refl 1⟩,
    halt_opcode_stops_after_one_fetch { NES.init with running := true } 1
      rfl rfl (le_refl 1)⟩

lemma fetch_pc_lt (s : NES) : s.fetch_byte.2.pc < 65536 := by
  show (s.pc % 65536 + 1) % 65536 < 65536
  exact Nat.mod_lt _ (by omega)

lemma reset_pc_lt (s : NES) (hl : s.memory 0xFFFC < 256)
    (hh : s.memory 0xFFFD < 256) : s.reset.pc < 65536 := by
  have hpc : s.reset.pc = (s.memory 0xFFFD <<< 8) ||| s.memory 0xFFFC := rfl
  rw [hpc]
  have h8 : (256 : Nat) = 2 ^ 8 := by norm_num
  have := Nat.append_lt (h8 ▸ hl) (h8 ▸ hh)
  simpa using this

lemma emulator_loop_pc_lt (fuel : Nat) : ∀ s : NES, s.pc < 65536 →
    (NES.emulator_loop fuel s).1.pc < 65536 := by
  induction fuel with
  | zero => intro s h; exact h
  | succ f ih =>
    intro s h
    rw [NES.emulator_loop]
    by_cases hr : s.running = true
    · rw [if_pos hr]
      show (NES.emulator_loop f (if s.fetch_byte.1 = 0 then { s.fetch_byte.2 with running := false } else s.fetch_byte.2)).1.pc < 65536
      apply ih
      by_cases hz : s.fetch_byte.1 = 0
      · rw [if_pos hz]
        exact fetch_pc_lt s
      · rw [if_neg hz]
        exact fetch_pc_lt s
    · rw [if_neg hr]
      exact h

/-- C8: `PC` stays in `[0, 65535]`.  With every memory cell a byte,
`reset` leaves `PC` under 65536; `fetch_byte` always does; and from any
in-range `PC` every run of the fuel-indexed loop ends with `PC` in
range. -/
theorem pc_always_sixteen_bit (s : NES) (hmem : ∀ a, s.memory a < 256) :
    s.reset.pc < 65536 ∧ s.fetch_byte.2.pc < 65536 ∧
    (s.pc < 65536 → ∀ fuel, (NES.emulator_loop fuel s).1.pc < 65536) :=
  ⟨reset_pc_lt s (hmem 0xFFFC) (hmem 0xFFFD), fetch_pc_lt s,
    fun h fuel => emulator_loop_pc_lt fuel s h⟩

/-- Witness for C8 at the freshly constructed `NES`. -/
theorem pc_always_sixteen_bit_witness :
    (∀ a, NES.init.memory a < 256) ∧
    (NES.init.reset.pc < 65536 ∧ NES.init.fetch_byte.2.pc < 65536 ∧
      (NES.init.pc < 65536 → ∀ fuel,
        (NES.emulator_loop fuel NES.init).1.pc < 65536)) :=
  ⟨fun _ => (by decide : (0 : Nat) < 256),
    pc_always_sixteen_bit NES.init (fun _ => (by decide : (0 : Nat) < 256))⟩
